import Mathlib

/-!
Verification development for the hirax-layoutdb repository.

Shallow embedding of:
* `padloper/_property_nodes.py` — the `PropertyType` and `Property` vertices,
  including `Property._validate` (scalar coercion, arity check, regex
  full-match check), `Property.as_dict`, and `PropertyType.get_count`
  (filtered counting over the backing graph store);
* `python-interface/local_graph.py` — `LocalGraph.create_from_connections_undirected`
  (building an in-memory graph from a flat connection list, deduplicating
  vertices by name with first-occurrence-wins property bags).

Conventions of the embedding:
* Python exceptions become an explicit error type (`PadError`, `GraphErr`);
  fallible operations return `Except`.
* Python's `re` module (an external library from the embedded code's point of
  view) is modelled by a small regular-expression engine over the fragment
  consisting of literals, `.`, grouping, alternation and Kleene star;
  a pattern outside this fragment is modelled as failing to compile.
  `re.fullmatch` is modelled as whole-string language membership, computed
  with Brzozowski derivatives.
* Python dicts (which preserve insertion order, overwrite in place, and
  append new keys at the end) are modelled as ordered association lists.
-/

set_option linter.unusedVariables false

namespace HiraxLayout

/-! ## Substring containment

Models both `TextP.containing` (the substring predicate used by
`PropertyType.get_count`) and the informal "the message names X" checks:
`hasSubstr sub s` holds iff `sub` occurs contiguously inside `s`. -/

def hasSubstrL (sub : List Char) : List Char → Bool
  | [] => sub.isEmpty
  | c :: t => sub.isPrefixOf (c :: t) || hasSubstrL sub t

def hasSubstr (sub s : String) : Bool :=
  hasSubstrL sub.data s.data

/-! ## A model of Python's `re` for the patterns this code puts in
`allowed_regex`.

`Regex` is the compiled form; `rmatch` decides whole-string membership
(the semantics of `re.fullmatch`) via Brzozowski derivatives. -/

inductive Regex where
  | emp : Regex
  | eps : Regex
  | lit (c : Char) : Regex
  | dot : Regex
  | cat (a b : Regex) : Regex
  | alt (a b : Regex) : Regex
  | star (a : Regex) : Regex
deriving DecidableEq

def Regex.nullable : Regex → Bool
  | .emp => false
  | .eps => true
  | .lit _ => false
  | .dot => false
  | .cat a b => a.nullable && b.nullable
  | .alt a b => a.nullable || b.nullable
  | .star _ => true

def Regex.deriv : Regex → Char → Regex
  | .emp, _ => .emp
  | .eps, _ => .emp
  | .lit c, d => if c = d then .eps else .emp
  | .dot, _ => .eps
  | .cat a b, d =>
      if a.nullable then .alt (.cat (a.deriv d) b) (b.deriv d)
      else .cat (a.deriv d) b
  | .alt a b, d => .alt (a.deriv d) (b.deriv d)
  | .star a, d => .cat (a.deriv d) (.star a)

/-- Whole-string matching: the semantics of `re.fullmatch` on a compiled
pattern. -/
def rmatch (r : Regex) (s : String) : Bool :=
  (s.data.foldl Regex.deriv r).nullable

/-! ### Pattern compilation

A recursive-descent parse of the pattern source. Characters that the
modelled fragment does not support (classes, bounded repeats, escapes,
anchors, `+`, `?`) are modelled as failing to compile. -/

def regexMeta : List Char := ['(', ')', '|', '*', '.', '[', ']', '+', '?', '\\', '^', '$']

/-- Parser nonterminals: alternation, sequence, starred atom, atom. -/
inductive PTag where
  | altT : PTag
  | seqT : PTag
  | starT : PTag
  | atomT : PTag

def parseR : Nat → PTag → List Char → Option (Regex × List Char)
  | 0, _, _ => none
  | fuel + 1, .altT, cs =>
    match parseR fuel .seqT cs with
    | none => none
    | some (r, rest) =>
      match rest with
      | '|' :: rest2 =>
        match parseR fuel .altT rest2 with
        | none => none
        | some (r2, rest3) => some (.alt r r2, rest3)
      | _ => some (r, rest)
  | fuel + 1, .seqT, cs =>
    match cs with
    | [] => some (.eps, [])
    | ')' :: rest => some (.eps, ')' :: rest)
    | '|' :: rest => some (.eps, '|' :: rest)
    | c :: rest =>
      match parseR fuel .starT (c :: rest) with
      | none => none
      | some (r, rest2) =>
        match parseR fuel .seqT rest2 with
        | none => none
        | some (r2, rest3) => some (.cat r r2, rest3)
  | fuel + 1, .starT, cs =>
    match parseR fuel .atomT cs with
    | none => none
    | some (r, '*' :: rest2) => some (.star r, rest2)
    | some (r, rest) => some (r, rest)
  | fuel + 1, .atomT, cs =>
    match cs with
    | [] => none
    | '(' :: rest =>
      match parseR fuel .altT rest with
      | some (r, ')' :: rest2) => some (r, rest2)
      | _ => none
    | '.' :: rest => some (.dot, rest)
    | c :: rest => if c ∈ regexMeta then none else some (.lit c, rest)

/-- Compilation of a pattern string; `none` models `re.error` /
an unsupported construct. -/
def compileRegex (s : String) : Option Regex :=
  match parseR (s.length * 4 + 8) .altT s.data with
  | some (r, []) => some r
  | _ => none

/-- `re.fullmatch` at the pattern-string level: `false` when the pattern is
outside the compiled fragment. -/
def rmatchStr (pat s : String) : Bool :=
  match compileRegex pat with
  | some r => rmatch r s
  | none => false

/-! ## Error taxonomy

The spec (§7) names the errors abstractly; the source raises Python
exceptions. The correspondence, per source:
* `missingArgument` — `TypeError` for an absent required keyword;
* `arityError` — `TypeError` raised by `_validate` on a value-count mismatch;
* `validationError` — `ValueError` raised by `_validate` on a regex mismatch;
* `schemaError` — malformed `PropertyType` at construction;
* `invalidArgument` — `AssertionError` from `assert len(f) == 2` in
  `PropertyType.get_count`;
* `regexError` — `re.error` from an uncompilable pattern. -/

inductive PadError where
  | missingArgument (msg : String) : PadError
  | arityError (msg : String) : PadError
  | validationError (msg : String) : PadError
  | schemaError (msg : String) : PadError
  | invalidArgument (msg : String) : PadError
  | regexError (msg : String) : PadError
deriving DecidableEq

/-! ## PropertyType -/

/-- The in-memory `PropertyType` object, fields as declared by
`PropertyType._vertex_attrs` (name, units, allowed_regex, n_values,
allowed_types, comments); `allowed_types` is kept as the list of the allowed
`ComponentType` names. -/
structure PropertyType where
  name : String
  units : String
  allowed_regex : String
  n_values : Int
  allowed_types : List String
  comments : String
deriving DecidableEq

/-- Modelled from the spec: the attribute-validation machinery of
`_base.Vertex` (which consumes `PropertyType._vertex_attrs`) is not among the
sources; following spec §3/§4.1, construction validates `n_values >= 1`,
`allowed_types` non-empty and `allowed_regex` compiles, and signals a
`SchemaError` when any invariant is violated. -/
def PropertyType.mk? (nm u rgx : String) (nv : Int) (ats : List String)
    (cm : String) : Except PadError PropertyType :=
  if nv < 1 then
    .error (.schemaError "n_values must be a positive integer")
  else if ats.isEmpty then
    .error (.schemaError "allowed_types must be non-empty")
  else if (compileRegex rgx).isNone then
    .error (.schemaError "allowed_regex does not compile")
  else
    .ok { name := nm, units := u, allowed_regex := rgx, n_values := nv,
          allowed_types := ats, comments := cm }

/-- The well-formedness invariant of spec §3 on an in-memory
`PropertyType`. -/
def PropertyType.wf (ty : PropertyType) : Bool :=
  (1 ≤ ty.n_values) && !ty.allowed_types.isEmpty
    && (compileRegex ty.allowed_regex).isSome

/-- Modelled from the spec: the generic `Vertex.as_dict` of `_base` is not
among the sources; per spec §4.2 the type's structural snapshot consists of
name, units, regex, n_values and comments. -/
structure PropertyTypeDict where
  name : String
  units : String
  allowed_regex : String
  n_values : Int
  comments : String
deriving DecidableEq

/-- Modelled from the spec: structural snapshot of a `PropertyType`
(spec §4.2: name, units, regex, n_values, comments). -/
def PropertyType.as_dict (ty : PropertyType) : PropertyTypeDict :=
  { name := ty.name, units := ty.units, allowed_regex := ty.allowed_regex,
    n_values := ty.n_values, comments := ty.comments }

/-! ## Property -/

structure Property where
  type : PropertyType
  values : List String
deriving DecidableEq

/-- The `values` keyword as the caller passes it: either a single scalar
string or a list of strings. -/
inductive ValuesArg where
  | scalar (s : String) : ValuesArg
  | list (vs : List String) : ValuesArg
deriving DecidableEq

/-- Lines 145-148 of `_property_nodes.py`: a scalar is interpreted as a
one-element list. -/
def coerceValues : ValuesArg → List String
  | .scalar s => [s]
  | .list vs => vs

/-- The `TypeError` message `"%d value%s %s required." % (nn, ...)` of
`_validate` (lines 156-158). -/
def arityMsg (nn : Int) : String :=
  toString nn ++ " value" ++ (if nn == 1 then "" else "s") ++ " "
    ++ (if nn == 1 then "is" else "are") ++ " required."

/-- The `ValueError` message of `_validate` (lines 165-169). -/
def valueMsg (val tyName pat : String) : String :=
  "Property with value " ++ val ++ " of type " ++ tyName
    ++ " does not match regex " ++ pat ++ "."

/-- The `for val in kwargs["values"]` loop of `_validate` (lines 163-169):
each value must `re.fullmatch` the type's pattern; the first failing value
raises. The pattern is compiled at first use, as in the source, so an
uncompilable pattern surfaces only when there is at least one value. -/
def validateValues (ty : PropertyType) : List String → Except PadError Unit
  | [] => .ok ()
  | v :: rest =>
    match compileRegex ty.allowed_regex with
    | none => .error (.regexError ty.allowed_regex)
    | some r =>
      if rmatch r v then validateValues ty rest
      else .error (.validationError (valueMsg v ty.name ty.allowed_regex))

/-- `Property` construction: `_validate` (scalar coercion, then the arity
check, then the per-value regex check) followed by the initialiser storing
`type` and the coerced `values`. -/
def Property.mk? (ty : PropertyType) (va : ValuesArg) : Except PadError Property :=
  let vs := coerceValues va
  if (vs.length : Int) ≠ ty.n_values then
    .error (.arityError (arityMsg ty.n_values))
  else
    match validateValues ty vs with
    | .error e => .error e
    | .ok _ => .ok { type := ty, values := vs }

structure PropertyDict where
  values : List String
  type : PropertyTypeDict
deriving DecidableEq

/-- `Property.as_dict` (lines 192-197): the values and the type's own
dictionary representation. -/
def Property.as_dict (p : Property) : PropertyDict :=
  { values := p.values, type := p.type.as_dict }

/-- Discriminator used to state refutations: is the outcome the
`ValidationError` of spec §7? -/
def isValidationError : Except PadError Property → Bool
  | .error (.validationError _) => true
  | _ => false

/-! ## Helper lemmas about substring containment -/

lemma hasSubstrL_nil (y : List Char) : hasSubstrL [] y = true := by
  cases y <;> simp [hasSubstrL, List.isPrefixOf]

lemma isPrefixOf_append_self (l y : List Char) : l.isPrefixOf (l ++ y) = true := by
  induction l with
  | nil => simp [List.isPrefixOf]
  | cons c t ih => simp [List.isPrefixOf, ih]

lemma hasSubstrL_self (sub y : List Char) : hasSubstrL sub (sub ++ y) = true := by
  cases sub with
  | nil => simpa using hasSubstrL_nil y
  | cons c t =>
    simp only [List.cons_append, hasSubstrL, Bool.or_eq_true]
    exact Or.inl (isPrefixOf_append_self (c :: t) y)

lemma hasSubstrL_middle (sub x y : List Char) :
    hasSubstrL sub (x ++ (sub ++ y)) = true := by
  induction x with
  | nil => simpa using hasSubstrL_self sub y
  | cons c t ih =>
    simp only [List.cons_append, hasSubstrL, Bool.or_eq_true]
    exact Or.inr ih

lemma hasSubstr_middle (a x y : String) : hasSubstr a (x ++ a ++ y) = true := by
  simp only [hasSubstr, String.data_append, List.append_assoc]
  exact hasSubstrL_middle a.data x.data y.data

lemma hasSubstr_left (a y : String) : hasSubstr a (a ++ y) = true := by
  simp only [hasSubstr, String.data_append]
  exact hasSubstrL_self a.data y.data

/-! ## Helper lemmas about `_validate` -/

lemma validateValues_ok (ty : PropertyType) (r : Regex)
    (hc : compileRegex ty.allowed_regex = some r) (vs : List String)
    (h : vs.all (fun v => rmatch r v) = true) :
    validateValues ty vs = .ok () := by
  induction vs with
  | nil => rfl
  | cons v rest ih =>
    simp only [List.all_cons, Bool.and_eq_true] at h
    simp [validateValues, hc, h.1, ih h.2]

lemma validateValues_bad (ty : PropertyType) (r : Regex)
    (hc : compileRegex ty.allowed_regex = some r) (vs : List String)
    (h : vs.any (fun v => !(rmatch r v)) = true) :
    ∃ bad, bad ∈ vs ∧ rmatch r bad = false ∧
      validateValues ty vs =
        .error (.validationError (valueMsg bad ty.name ty.allowed_regex)) := by
  induction vs with
  | nil => simp at h
  | cons v rest ih =>
    by_cases hv : rmatch r v
    · simp only [List.any_cons, hv, Bool.not_true, Bool.false_or] at h
      obtain ⟨bad, hmem, hm, heq⟩ := ih h
      exact ⟨bad, List.mem_cons_of_mem _ hmem, hm, by simp [validateValues, hc, hv, heq]⟩
    · exact ⟨v, List.mem_cons_self _ _, by simpa using hv,
        by simp [validateValues, hc, hv]⟩

/-! ## Claim theorems for `Property` and `PropertyType` construction -/

/-- Claim C3: for every well-formed `PropertyType` `T` and list `v` of
strings of length `T.n_values` whose every element fully matches
`T.allowed_regex`, constructing `Property(type=T, values=v)` succeeds and
`as_dict` returns exactly `v` together with `T`'s structural fields (name,
units, regex, n_values, comments). The embedding is a pure function, so the
construction and `as_dict` have no side effects. -/
theorem property_construction_roundtrip (T : PropertyType) (v : List String)
    (hwf : T.wf = true)
    (hlen : (v.length : Int) = T.n_values)
    (hmatch : v.all (fun s => rmatchStr T.allowed_regex s) = true) :
    Property.mk? T (.list v) = .ok { type := T, values := v } ∧
    Property.as_dict { type := T, values := v } =
      { values := v,
        type := { name := T.name, units := T.units,
                  allowed_regex := T.allowed_regex, n_values := T.n_values,
                  comments := T.comments } } := by
  simp only [PropertyType.wf, Bool.and_eq_true, Option.isSome_iff_exists] at hwf
  obtain ⟨⟨-, -⟩, r, hr⟩ := hwf
  have hm : v.all (fun s => rmatch r s) = true := by
    simp only [List.all_eq_true] at hmatch ⊢
    intro s hs
    have := hmatch s hs
    simpa [rmatchStr, hr] using this
  constructor
  · simp [Property.mk?, coerceValues, hlen, validateValues_ok T r hr v hm]
  · rfl

def TWit : PropertyType :=
  { name := "temperature", units := "K", allowed_regex := ".*", n_values := 2,
    allowed_types := ["sensor"], comments := "" }

theorem property_construction_roundtrip_witness :
    TWit.wf = true ∧ ((["3", "4"].length : Int) = TWit.n_values) ∧
    ((["3", "4"] : List String).all (fun s => rmatchStr TWit.allowed_regex s) = true) ∧
    Property.mk? TWit (.list ["3", "4"]) = .ok { type := TWit, values := ["3", "4"] } :=
  ⟨by decide, by decide, by decide,
   (property_construction_roundtrip TWit ["3", "4"] (by decide) (by decide)
      (by decide)).1⟩

def TRegexA : PropertyType :=
  { name := "flag", units := "", allowed_regex := "a", n_values := 2,
    allowed_types := ["comp"], comments := "" }

/-- Claim C4 counterexample: for the type `TRegexA` (pattern `"a"`,
`n_values = 2`) and values `["b"]`, the value `"b"` does not fully match the
pattern, yet construction fails with the arity `TypeError`
(`"2 values are required."`), not with the `ValidationError` the claim
requires: in `_validate` the arity check precedes the regex check. -/
theorem property_validation_precedence_cx :
    rmatchStr TRegexA.allowed_regex "b" = false ∧
    Property.mk? TRegexA (.list ["b"]) =
      .error (.arityError "2 values are required.") ∧
    isValidationError (Property.mk? TRegexA (.list ["b"])) = false := by
  refine ⟨by decide, ?_, by decide⟩
  rfl

/-- Claim C4 (amended): for every construction where the coerced value list
has length `type.n_values` and some value does not fully match the compiled
`allowed_regex`, construction fails with a `ValidationError` whose message
names the (first) offending value, the type's name and the pattern; no
persistence is attempted (construction returns the error before any `_add`
can run). -/
theorem property_validation_error (T : PropertyType) (va : ValuesArg) (r : Regex)
    (hc : compileRegex T.allowed_regex = some r)
    (hlen : ((coerceValues va).length : Int) = T.n_values)
    (hbad : (coerceValues va).any (fun v => !(rmatch r v)) = true) :
    ∃ bad, bad ∈ coerceValues va ∧ rmatch r bad = false ∧
      Property.mk? T va =
        .error (.validationError (valueMsg bad T.name T.allowed_regex)) ∧
      hasSubstr bad (valueMsg bad T.name T.allowed_regex) = true ∧
      hasSubstr T.name (valueMsg bad T.name T.allowed_regex) = true ∧
      hasSubstr T.allowed_regex (valueMsg bad T.name T.allowed_regex) = true := by
  obtain ⟨bad, hmem, hm, heq⟩ := validateValues_bad T r hc (coerceValues va) hbad
  refine ⟨bad, hmem, hm, ?_, ?_, ?_, ?_⟩
  · simp [Property.mk?, hlen, heq]
  · simpa [valueMsg, String.append_assoc] using
      hasSubstr_middle bad "Property with value "
        (" of type " ++ T.name ++ " does not match regex " ++ T.allowed_regex ++ ".")
  · simpa [valueMsg, String.append_assoc] using
      hasSubstr_middle T.name ("Property with value " ++ bad ++ " of type ")
        (" does not match regex " ++ T.allowed_regex ++ ".")
  · simpa [valueMsg, String.append_assoc] using
      hasSubstr_middle T.allowed_regex
        ("Property with value " ++ bad ++ " of type " ++ T.name
          ++ " does not match regex ") "."

theorem property_validation_error_witness :
    ∃ bad, bad ∈ coerceValues (.list ["b", "a"]) ∧
      rmatch (Regex.cat (.lit 'a') .eps) bad = false ∧
      Property.mk? TRegexA (.list ["b", "a"]) =
        .error (.validationError (valueMsg bad TRegexA.name TRegexA.allowed_regex)) ∧
      hasSubstr bad (valueMsg bad TRegexA.name TRegexA.allowed_regex) = true ∧
      hasSubstr TRegexA.name (valueMsg bad TRegexA.name TRegexA.allowed_regex) = true ∧
      hasSubstr TRegexA.allowed_regex
        (valueMsg bad TRegexA.name TRegexA.allowed_regex) = true :=
  property_validation_error TRegexA (.list ["b", "a"]) (Regex.cat (.lit 'a') .eps)
    (by decide) (by decide) (by decide)

/-- Claim C5 counterexample: for the type `TWit` (`n_values = 2`) and values
`["a"]` (actual count 1), construction fails with the arity `TypeError`
whose message is `"2 values are required."` — the expected count appears but
the actual count `1` does not, refuting "names both the expected count and
the actual count". -/
theorem property_arity_message_cx :
    Property.mk? TWit (.list ["a"]) =
      .error (.arityError "2 values are required.") ∧
    hasSubstr "1" "2 values are required." = false := by
  constructor
  · rfl
  · decide

/-- Claim C5 (amended): for every construction where the coerced value list
has length different from `type.n_values`, construction fails with the arity
`TypeError` whose message names the expected count (the actual count does
not appear in the message format). -/
theorem property_arity_error (T : PropertyType) (va : ValuesArg)
    (hlen : ((coerceValues va).length : Int) ≠ T.n_values) :
    Property.mk? T va = .error (.arityError (arityMsg T.n_values)) ∧
    hasSubstr (toString T.n_values) (arityMsg T.n_values) = true := by
  constructor
  · simp [Property.mk?, hlen]
  · simpa [arityMsg, String.append_assoc] using
      hasSubstr_left (toString T.n_values)
        (" value" ++ (if T.n_values == 1 then "" else "s") ++ " "
          ++ (if T.n_values == 1 then "is" else "are") ++ " required.")

theorem property_arity_error_witness :
    Property.mk? TWit (.list ["a"]) =
      .error (.arityError (arityMsg TWit.n_values)) ∧
    hasSubstr (toString TWit.n_values) (arityMsg TWit.n_values) = true :=
  property_arity_error TWit (.list ["a"]) (by decide)

/-- Claim C6: constructing a `Property` with a scalar `values` argument
behaves identically to constructing it with the one-element list: the
scalar is coerced before any check, so success/failure, the stored values
and hence `as_dict` agree exactly. -/
theorem property_scalar_list_equiv (T : PropertyType) (s : String) :
    Property.mk? T (.scalar s) = Property.mk? T (.list [s]) := rfl

/-- Claim C9: `PropertyType` construction validates `n_values >= 1`,
`allowed_types` non-empty and `allowed_regex` compiles: construction
succeeds exactly when all three invariants hold, and every construction
failure is a `SchemaError`. -/
theorem propertyType_schema_validation (nm u rgx : String) (nv : Int)
    (ats : List String) (cm : String) :
    (PropertyType.mk? nm u rgx nv ats cm =
        .ok { name := nm, units := u, allowed_regex := rgx, n_values := nv,
              allowed_types := ats, comments := cm }
      ↔ (1 ≤ nv ∧ ats ≠ [] ∧ (compileRegex rgx).isSome = true)) ∧
    (∀ e, PropertyType.mk? nm u rgx nv ats cm = .error e →
      ∃ m, e = .schemaError m) := by
  unfold PropertyType.mk?
  by_cases h1 : nv < 1
  · simp only [h1, if_true]
    constructor
    · constructor
      · intro h; cases h
      · rintro ⟨h, -, -⟩; omega
    · rintro e he
      exact ⟨_, (Except.error.injEq _ _).mp he.symm⟩
  · by_cases h2 : ats.isEmpty
    · simp only [h1, if_false, h2, if_true]
      constructor
      · constructor
        · intro h; cases h
        · rintro ⟨-, h, -⟩
          exact absurd (List.isEmpty_iff.mp h2) h
      · rintro e he
        exact ⟨_, (Except.error.injEq _ _).mp he.symm⟩
    · by_cases h3 : (compileRegex rgx).isNone
      · simp only [h1, if_false, h2, h3, if_true]
        constructor
        · constructor
          · intro h; cases h
          · rintro ⟨-, -, h⟩
            rw [Option.isNone_iff_eq_none] at h3
            simp [h3] at h
        · rintro e he
          exact ⟨_, (Except.error.injEq _ _).mp he.symm⟩
      · simp only [h1, if_false, h2, h3]
        constructor
        · constructor
          · intro _
            refine ⟨by omega, fun hh => ?_, ?_⟩
            · rw [hh] at h2; simp at h2
            · simpa [Option.isSome_iff_ne_none, Option.isNone_iff_eq_none] using h3
          · intro _; rfl
        · rintro e he; cases he

/-! ## PropertyType.get_count

The backing store is modelled as a list of vertex rows; a row carries the
`active` flag, the `category`, the `name`, and the names of the
`ComponentType` vertices adjacent through a `RelationPropertyAllowedType`
edge (the `__.both(...)` step of the traversal). -/

structure PTEntity where
  active : Bool
  category : String
  name : String
  allowedTypeNames : List String
deriving DecidableEq

/-- The base traversal `g.t.V().has('active', True).has('category',
PropertyType.category)`. -/
def activePropertyType (e : PTEntity) : Bool :=
  e.active && (e.category == "property_type")

/-- The `__.and_(*contents)` built for one filter: the name-substring clause
(`TextP.containing`) when `f[0]` is non-empty, the adjacent-owner-type
clause when `f[1]` is non-empty; a skipped clause contributes `true` to the
conjunction. -/
def filterPred (p : String × String) (e : PTEntity) : Bool :=
  (p.1 == "" || hasSubstr p.1 e.name)
    && (p.2 == "" || e.allowedTypeNames.contains p.2)

/-- The filter loop of `get_count` (lines 75-95): `assert len(f) == 2`,
then collect into `ands` those filters contributing at least one clause. -/
def checkFilters : List (List String) → Except PadError (List (String × String))
  | [] => .ok []
  | f :: rest =>
    if f.length == 2 then
      let p : String × String := (f.getD 0 "", f.getD 1 "")
      match checkFilters rest with
      | .error e => .error e
      | .ok rs => .ok (if p.1 != "" || p.2 != "" then p :: rs else rs)
    else
      .error (.invalidArgument "assert len(f) == 2")

/-- `PropertyType.get_count` (lines 56-100): count the active
`property_type` rows, restricted by `or_(*ands)` when `ands` is non-empty.
The `AssertionError` of a malformed filter is raised while the traversal is
being built, before `.count().next()` runs. -/
def get_count (filters : Option (List (List String))) (db : List PTEntity) :
    Except PadError Nat :=
  match filters with
  | none => .ok (db.countP (fun e => activePropertyType e))
  | some fs =>
    match checkFilters fs with
    | .error e => .error e
    | .ok ands =>
      if ands.isEmpty then .ok (db.countP (fun e => activePropertyType e))
      else
        .ok (db.countP
          (fun e => activePropertyType e && ands.any (fun p => filterPred p e)))

/-- Stated from the claim's words: a filter is non-trivial when at least one
of its two elements is non-empty. -/
def claimNontrivial (p : String × String) : Bool := p.1 != "" || p.2 != ""

/-- Stated from the claim's words: the number of active PropertyType
entities matching the disjunction of the (non-trivial) filters, each filter
a conjunction of its non-empty clauses; a filter with both elements empty
constrains nothing, and with no constraining filter the total count of
active entities results. -/
def claimCount (fs : List (String × String)) (db : List PTEntity) : Nat :=
  let fs2 := fs.filter claimNontrivial
  if fs2.isEmpty then db.countP (fun e => activePropertyType e)
  else db.countP (fun e => activePropertyType e && fs2.any (fun p => filterPred p e))

/-- A 2-element filter tuple, as the list the Python call site passes. -/
def pairToFilter (p : String × String) : List String := [p.1, p.2]

lemma checkFilters_pairs (fs : List (String × String)) :
    checkFilters (fs.map pairToFilter) = .ok (fs.filter claimNontrivial) := by
  induction fs with
  | nil => rfl
  | cons p rest ih =>
    simp only [List.map_cons, checkFilters, pairToFilter, ih, List.filter_cons]
    simp [claimNontrivial]

/-- Claim C1: for every list of 2-element filter tuples, `get_count` returns
the number of active PropertyType entities matching the disjunction of the
filters, each filter being the conjunction of a name-contains-substring
clause and a permitted-on-owner-type clause with empty-string clauses
skipped; a filter whose elements are both empty constrains nothing, and an
empty (or all-trivial) filter list yields the total count of active
PropertyType entities. -/
theorem get_count_matches_disjunction (fs : List (String × String))
    (db : List PTEntity) :
    get_count (some (fs.map pairToFilter)) db = .ok (claimCount fs db) := by
  simp [get_count, checkFilters_pairs, claimCount]
  split <;> rfl

lemma checkFilters_malformed (fs : List (List String))
    (h : ∃ f ∈ fs, f.length ≠ 2) :
    ∃ m, checkFilters fs = .error (.invalidArgument m) := by
  induction fs with
  | nil => simp at h
  | cons f rest ih =>
    by_cases hf : f.length == 2
    · obtain ⟨g, hg, hlen⟩ := h
      rcases List.mem_cons.mp hg with hg | hg
      · exact absurd (by simpa using hf) (hg ▸ hlen)
      · obtain ⟨m, hm⟩ := ih ⟨g, hg, hlen⟩
        exact ⟨m, by simp [checkFilters, hf, hm]⟩
    · exact ⟨"assert len(f) == 2", by simp [checkFilters, hf]⟩

/-- Claim C8: a filters argument containing a tuple whose length is not 2
makes `get_count` signal the `InvalidArgument` error (the Python
`assert len(f) == 2`); the result is this error for every database, so no
count is ever computed. -/
theorem get_count_malformed_filter (fs : List (List String)) (db : List PTEntity)
    (h : ∃ f ∈ fs, f.length ≠ 2) :
    ∃ m, get_count (some fs) db = .error (.invalidArgument m) := by
  obtain ⟨m, hm⟩ := checkFilters_malformed fs h
  exact ⟨m, by simp [get_count, hm]⟩

theorem get_count_malformed_filter_witness :
    ∃ m, get_count (some [["volt"]]) [] = .error (.invalidArgument m) :=
  get_count_malformed_filter [["volt"]] []
    ⟨["volt"], List.mem_singleton.mpr rfl, by decide⟩

theorem propertyType_schema_validation_witness :
    PropertyType.mk? "t" "" ".*" 1 ["ctype"] "" =
      .ok { name := "t", units := "", allowed_regex := ".*", n_values := 1,
            allowed_types := ["ctype"], comments := "" } ∧
    ∃ m, PadError.schemaError "allowed_regex does not compile" =
      .schemaError m :=
  ⟨(propertyType_schema_validation "t" "" ".*" 1 ["ctype"] "").1.mpr
      ⟨by decide, by decide, by decide⟩,
   (propertyType_schema_validation "t" "" "(" 1 ["ctype"] "").2
      (.schemaError "allowed_regex does not compile") (by rfl)⟩

/-! ## LocalGraph.create_from_connections_undirected

`python-interface/local_graph.py`. An endpoint descriptor is a record with
a `properties` dict (attribute name to a list of values — TinkerPop's
one-value-slot-per-attribute convention) and a `type` string. Python dicts
preserve insertion order, overwrite a key in place, and append a new key at
the end; they are modelled as ordered association lists with exactly those
operations (`dictGet`, `dictSet`). -/

structure Endpoint where
  properties : List (String × List String)
  type : String
deriving DecidableEq

/-- One connection record: an ordered pair of endpoint descriptors. -/
abbrev Conn := Endpoint × Endpoint

/-- The Python exceptions the build loop can raise: `KeyError` for a missing
dict key, `IndexError` for `[0]` on an empty list. -/
inductive GraphErr where
  | keyError : GraphErr
  | indexError : GraphErr
deriving DecidableEq

def dictGet (d : List (String × List String)) (k : String) :
    Option (List String) :=
  match d.find? (fun q => q.1 == k) with
  | some q => some q.2
  | none => none

def dictHasKey (d : List (String × List String)) (k : String) : Bool :=
  d.any (fun q => q.1 == k)

/-- `d[k] = v` on a Python dict: overwrite in place when the key exists,
append at the end otherwise. -/
def dictSet (d : List (String × List String)) (k : String) (v : List String) :
    List (String × List String) :=
  if dictHasKey d k then d.map (fun q => if q.1 == k then (k, v) else q)
  else d ++ [(k, v)]

def indexOfName (m : List (String × Nat)) (n : String) : Option Nat :=
  match m.find? (fun q => q.1 == n) with
  | some q => some q.2
  | none => none

/-- The loop state of `create_from_connections_undirected`:
`vertex_properties` (parallel per-key value arrays), `vertex_name_to_ind`,
`vertex_index_connections` and `vertices_so_far`. -/
structure GState where
  vertex_properties : List (String × List String)
  vertex_name_to_ind : List (String × Nat)
  vertex_index_connections : List (Nat × Nat)
  vertices_so_far : Nat
deriving DecidableEq

def initState : GState :=
  { vertex_properties := [], vertex_name_to_ind := [],
    vertex_index_connections := [], vertices_so_far := 0 }

/-- Line 70: `properties['type'] = [type]` — performed in place on the
caller's dict. -/
def injectType (ep : Endpoint) : Endpoint :=
  { ep with properties := dictSet ep.properties "type" [ep.type] }

def mutateConn (c : Conn) : Conn := (injectType c.1, injectType c.2)

/-- Lines 78-82: for each key of the endpoint's bag, append
`properties[key][0]` to `vertex_properties[key]` (creating the slot when
absent); `[0]` on an empty value list raises `IndexError`. -/
def addProperties (vp : List (String × List String)) :
    List (String × List String) → Except GraphErr (List (String × List String))
  | [] => .ok vp
  | (k, vals) :: rest =>
    match vals with
    | [] => .error .indexError
    | v0 :: _ =>
      addProperties (dictSet vp k ((dictGet vp k).getD [] ++ [v0])) rest

/-- Lines 64-87, one endpoint: inject the `type` key, extract
`properties['name'][0]`, then either reuse the existing index for that name
or assign the next index and copy the first element of every property into
the vertex property table. Returns the updated state, the endpoint's index,
and the endpoint as the caller's record now reads (its dict was mutated in
place). -/
def processEndpoint (st : GState) (ep : Endpoint) :
    Except GraphErr (GState × Nat × Endpoint) :=
  match dictGet (dictSet ep.properties "type" [ep.type]) "name" with
  | none => .error .keyError
  | some [] => .error .indexError
  | some (nm :: _) =>
    match indexOfName st.vertex_name_to_ind nm with
    | some i => .ok (st, i, injectType ep)
    | none =>
      match addProperties st.vertex_properties
          (dictSet ep.properties "type" [ep.type]) with
      | .error e => .error e
      | .ok vp =>
        .ok ({ st with
                vertex_properties := vp,
                vertex_name_to_ind :=
                  st.vertex_name_to_ind ++ [(nm, st.vertices_so_far)],
                vertices_so_far := st.vertices_so_far + 1 },
             st.vertices_so_far,
             injectType ep)

/-- Lines 59-89, one connection: process the two endpoints in order and
record the index pair. -/
def processConn (st : GState) (c : Conn) : Except GraphErr (GState × Conn) :=
  match processEndpoint st c.1 with
  | .error e => .error e
  | .ok (st1, i1, m1) =>
    match processEndpoint st1 c.2 with
    | .error e => .error e
    | .ok (st2, i2, m2) =>
      .ok ({ st2 with
              vertex_index_connections :=
                st2.vertex_index_connections ++ [(i1, i2)] },
           (m1, m2))

def processConns (st : GState) (acc : List Conn) :
    List Conn → Except GraphErr (GState × List Conn)
  | [] => .ok (st, acc)
  | c :: rest =>
    match processConn st c with
    | .error e => .error e
    | .ok (st2, mc) => processConns st2 (acc ++ [mc]) rest

/-- `LocalGraph.create_from_connections_undirected`: the single linear pass
over the connection list. Returns the final loop state (from which
`igraph.Graph(vertex_index_connections)` and the `vs[key]` assignments are
materialized at the boundary) together with the caller's records as they
read after the call. -/
def create_from_connections_undirected (conns : List Conn) :
    Except GraphErr (GState × List Conn) :=
  processConns initState [] conns

/-! ### Vocabulary for the claims about `build` -/

/-- The name a build extracts for an endpoint:
`properties['name'][0]` (the `type` injection cannot affect it). -/
def epName (ep : Endpoint) : Option String :=
  match dictGet ep.properties "name" with
  | some (v :: _) => some v
  | _ => none

def epNameD (ep : Endpoint) : String := (epName ep).getD ""

/-- Well-formed endpoint: it has a name, and every property value list is
non-empty (the one-value-slot convention of spec §6). -/
def epWF (ep : Endpoint) : Bool :=
  (epName ep).isSome && ep.properties.all (fun q => !q.2.isEmpty)

def connWF (c : Conn) : Bool := epWF c.1 && epWF c.2

/-- Weaker: both endpoints have a name (enough to process an endpoint whose
name was already seen). -/
def connNamed (c : Conn) : Bool := (epName c.1).isSome && (epName c.2).isSome

/-- Endpoint names of a connection list, in processing order. -/
def allEndpointNames (conns : List Conn) : List String :=
  conns.foldr (fun c acc => epNameD c.1 :: epNameD c.2 :: acc) []

/-- Boolean membership (with `==` oriented as elsewhere in this file). -/
def nameMem (n : String) (l : List String) : Bool := l.any (fun m => m == n)

/-- Append a name only when unseen: the claim-side description of the
dedup-by-name policy. -/
def addNew (seen : List String) (n : String) : List String :=
  if nameMem n seen then seen else seen ++ [n]

/-- The distinct names of a list, in first-occurrence order. -/
def firstOccurs (ns : List String) : List String := ns.foldl addNew []

/-- The vertex names stored in the state, in index order. -/
def stNames (st : GState) : List String := st.vertex_name_to_ind.map Prod.fst

/-- All endpoint descriptors of a connection list, in processing order
(first endpoint of the first record, second endpoint of the first record,
first endpoint of the second record, ...). -/
def endpointsOf (conns : List Conn) : List Endpoint :=
  conns.foldr (fun c acc => c.1 :: c.2 :: acc) []

/-- Stated from the claim's words: of a sequence of endpoint descriptors,
keep only the one carrying the first occurrence of each name (`seen` is the
set of names already fixed). Endpoints dropped here are exactly the later
occurrences, so anything computed from `firstEps` alone is unaffected by
them. -/
def firstEps (seen : List String) : List Endpoint → List Endpoint
  | [] => []
  | ep :: rest =>
    if nameMem (epNameD ep) seen then firstEps seen rest
    else ep :: firstEps (seen ++ [epNameD ep]) rest

/-- The property-copy step folded over a sequence of endpoints (each with
its `type` key injected, as the build does): the reference against which the
stored `vertex_properties` table is compared. -/
def addPropertiesList (vp : List (String × List String)) :
    List Endpoint → Except GraphErr (List (String × List String))
  | [] => .ok vp
  | ep :: rest =>
    match addProperties vp (dictSet ep.properties "type" [ep.type]) with
    | .error e => .error e
    | .ok vp2 => addPropertiesList vp2 rest

/-! ### Dictionary lemmas -/

lemma find_map_set_ne (d : List (String × List String)) (k k' : String)
    (v : List String) (h : k' ≠ k) :
    (d.map (fun q => if q.1 == k then (k, v) else q)).find? (fun q => q.1 == k')
      = d.find? (fun q => q.1 == k') := by
  induction d with
  | nil => rfl
  | cons q d ih =>
    by_cases hq : q.1 = k
    · simp only [List.map_cons, hq]
      rw [List.find?_cons_of_neg _ (by simp [Ne.symm h]),
        List.find?_cons_of_neg _ (by simp [hq, Ne.symm h]), ih]
    · have h1 : (q.1 == k) = false := by simp [hq]
      simp only [List.map_cons, h1, Bool.false_eq_true, if_false]
      by_cases hq' : q.1 = k'
      · rw [List.find?_cons_of_pos _ (by simp [hq']),
          List.find?_cons_of_pos _ (by simp [hq'])]
      · rw [List.find?_cons_of_neg _ (by simp [hq']),
          List.find?_cons_of_neg _ (by simp [hq']), ih]

lemma find_append_ne (d : List (String × List String)) (k k' : String)
    (v : List String) (h : k' ≠ k) :
    (d ++ [(k, v)]).find? (fun q => q.1 == k') = d.find? (fun q => q.1 == k') := by
  induction d with
  | nil =>
    have hkk : (k == k') = false := by simp [Ne.symm h]
    simp [List.find?, hkk]
  | cons q d ih =>
    by_cases hq : q.1 = k'
    · rw [List.cons_append, List.find?_cons_of_pos _ (by simp [hq]),
        List.find?_cons_of_pos _ (by simp [hq])]
    · rw [List.cons_append, List.find?_cons_of_neg _ (by simp [hq]),
        List.find?_cons_of_neg _ (by simp [hq]), ih]

/-- Setting one key leaves every other key's value unchanged. -/
lemma dictGet_dictSet_ne (d : List (String × List String)) (k k' : String)
    (v : List String) (h : k' ≠ k) :
    dictGet (dictSet d k v) k' = dictGet d k' := by
  unfold dictSet
  split
  · unfold dictGet; rw [find_map_set_ne d k k' v h]
  · unfold dictGet; rw [find_append_ne d k k' v h]

lemma find_map_set_same (d : List (String × List String)) (k : String)
    (v : List String) (hhas : dictHasKey d k = true) :
    (d.map (fun q => if q.1 == k then (k, v) else q)).find? (fun q => q.1 == k)
      = some (k, v) := by
  induction d with
  | nil => simp [dictHasKey] at hhas
  | cons q d ih =>
    by_cases hq : q.1 = k
    · simp only [List.map_cons, hq]
      rw [List.find?_cons_of_pos _ (by simp)]
      simp
    · have h1 : (q.1 == k) = false := by simp [hq]
      have hhas' : dictHasKey d k = true := by
        simpa [dictHasKey, List.any_cons, h1] using hhas
      simp only [List.map_cons, h1, Bool.false_eq_true, if_false]
      rw [List.find?_cons_of_neg _ (by simp [hq]), ih hhas']

lemma find_append_same (d : List (String × List String)) (k : String)
    (v : List String) (hno : dictHasKey d k = false) :
    (d ++ [(k, v)]).find? (fun q => q.1 == k) = some (k, v) := by
  induction d with
  | nil => simp [List.find?]
  | cons q d ih =>
    rw [dictHasKey, List.any_cons] at hno
    obtain ⟨h1, h2⟩ := Bool.or_eq_false_iff.mp hno
    rw [List.cons_append, List.find?_cons_of_neg _ (by simp [h1]), ih h2]

/-- Setting a key makes lookup of that key return the new value (Python dict
assignment, whether it overwrites or appends). -/
lemma dictGet_dictSet_same (d : List (String × List String)) (k : String)
    (v : List String) : dictGet (dictSet d k v) k = some v := by
  unfold dictSet
  split
  · rename_i hhas
    unfold dictGet
    rw [find_map_set_same d k v hhas]
  · rename_i hno
    unfold dictGet
    rw [find_append_same d k v (by simpa using hno)]

lemma dictGet_name_inject (ep : Endpoint) :
    dictGet (dictSet ep.properties "type" [ep.type]) "name"
      = dictGet ep.properties "name" :=
  dictGet_dictSet_ne _ _ _ _ (by decide)

lemma dictSet_all_nonempty (d : List (String × List String)) (k : String)
    (v : List String) (hv : v.isEmpty = false)
    (h : d.all (fun q => !q.2.isEmpty) = true) :
    (dictSet d k v).all (fun q => !q.2.isEmpty) = true := by
  unfold dictSet
  split
  · rw [List.all_map]
    rw [List.all_eq_true] at h ⊢
    intro q hq
    by_cases hk : q.1 == k
    · simp [Function.comp, hk, hv]
    · simpa [Function.comp, hk] using h q hq
  · simp [List.all_append, h, hv]

/-! ### Endpoint and connection processing lemmas -/

lemma addProperties_ok (props : List (String × List String))
    (h : props.all (fun q => !q.2.isEmpty) = true) :
    ∀ vp, ∃ vp2, addProperties vp props = .ok vp2 := by
  induction props with
  | nil => exact fun vp => ⟨vp, rfl⟩
  | cons q rest ih =>
    intro vp
    simp only [List.all_cons, Bool.and_eq_true] at h
    obtain ⟨k, vals⟩ := q
    cases vals with
    | nil => simp at h
    | cons v0 tl =>
      simpa [addProperties] using
        ih h.2 (dictSet vp k ((dictGet vp k).getD [] ++ [v0]))

lemma indexOfName_isSome (m : List (String × Nat)) (n : String) :
    (indexOfName m n).isSome = nameMem n (m.map Prod.fst) := by
  induction m with
  | nil => rfl
  | cons q m ih =>
    by_cases hq : q.1 = n
    · simp [indexOfName, nameMem, List.find?_cons_of_pos, List.any_cons, hq]
    · have h1 : (q.1 == n) = false := by simp [hq]
      unfold indexOfName at ih ⊢
      rw [List.find?_cons_of_neg _ (by simp [hq])]
      simp only [List.map_cons, nameMem, List.any_cons, h1, Bool.false_or]
      exact ih

lemma epName_some (ep : Endpoint) (nm : String) (h : epName ep = some nm) :
    ∃ tl, dictGet ep.properties "name" = some (nm :: tl) := by
  unfold epName at h
  rcases hd : dictGet ep.properties "name" with - | vals
  · rw [hd] at h; cases h
  · cases vals with
    | nil => rw [hd] at h; cases h
    | cons v tl =>
      rw [hd] at h
      exact ⟨tl, by simp only [Option.some.injEq] at h; rw [h]⟩

lemma processEndpoint_seen (st : GState) (ep : Endpoint) (nm : String)
    (hn : epName ep = some nm)
    (hseen : nameMem nm (stNames st) = true) :
    ∃ i, processEndpoint st ep = .ok (st, i, injectType ep) := by
  obtain ⟨tl, hd⟩ := epName_some ep nm hn
  have hni : (indexOfName st.vertex_name_to_ind nm).isSome = true := by
    rw [indexOfName_isSome]
    simpa [stNames] using hseen
  obtain ⟨i, hi⟩ := Option.isSome_iff_exists.mp hni
  refine ⟨i, ?_⟩
  simp only [processEndpoint]
  rw [dictGet_name_inject, hd]
  simp only [hi]

lemma processEndpoint_new (st : GState) (ep : Endpoint) (nm : String)
    (hn : epName ep = some nm)
    (hprops : ep.properties.all (fun q => !q.2.isEmpty) = true)
    (hnew : nameMem nm (stNames st) = false) :
    ∃ vp2, addProperties st.vertex_properties
        (dictSet ep.properties "type" [ep.type]) = .ok vp2 ∧
      processEndpoint st ep =
      .ok ({ st with
              vertex_properties := vp2,
              vertex_name_to_ind :=
                st.vertex_name_to_ind ++ [(nm, st.vertices_so_far)],
              vertices_so_far := st.vertices_so_far + 1 },
            st.vertices_so_far, injectType ep) := by
  obtain ⟨tl, hd⟩ := epName_some ep nm hn
  have hni : indexOfName st.vertex_name_to_ind nm = none := by
    have h1 : (indexOfName st.vertex_name_to_ind nm).isSome = false := by
      rw [indexOfName_isSome]
      simpa [stNames] using hnew
    exact Option.not_isSome_iff_eq_none.mp (by simp [h1])
  have hall : (dictSet ep.properties "type" [ep.type]).all
      (fun q => !q.2.isEmpty) = true :=
    dictSet_all_nonempty ep.properties "type" [ep.type] rfl hprops
  obtain ⟨vp2, hvp⟩ := addProperties_ok _ hall st.vertex_properties
  refine ⟨vp2, hvp, ?_⟩
  simp only [processEndpoint]
  rw [dictGet_name_inject, hd]
  simp only [hni, hvp]

/-- One well-formed endpoint: processing succeeds, the endpoint's record is
the type-injected one, the stored names evolve by `addNew`, the edge list is
untouched, and the vertex counter stays in step with the name table. -/
lemma processEndpoint_wf (st : GState) (ep : Endpoint) (hep : epWF ep = true) :
    ∃ st1 i, processEndpoint st ep = .ok (st1, i, injectType ep) ∧
      stNames st1 = addNew (stNames st) (epNameD ep) ∧
      st1.vertex_index_connections = st.vertex_index_connections ∧
      addPropertiesList st.vertex_properties (firstEps (stNames st) [ep])
        = .ok st1.vertex_properties ∧
      (st.vertices_so_far = (stNames st).length →
        st1.vertices_so_far = (stNames st1).length) := by
  simp only [epWF, Bool.and_eq_true] at hep
  obtain ⟨nm, hn⟩ := Option.isSome_iff_exists.mp hep.1
  have hnd : epNameD ep = nm := by simp [epNameD, hn]
  by_cases hs : nameMem nm (stNames st)
  · obtain ⟨i, hi⟩ := processEndpoint_seen st ep nm hn hs
    exact ⟨st, i, hi, by simp [addNew, hnd, hs], rfl,
      by simp [firstEps, hnd, hs, addPropertiesList], fun x => x⟩
  · have hsf : nameMem nm (stNames st) = false := by simpa using hs
    obtain ⟨vp2, hadd, hvp⟩ := processEndpoint_new st ep nm hn hep.2 hsf
    refine ⟨_, _, hvp, ?_, rfl, ?_, ?_⟩
    · have hs' : nameMem nm (List.map Prod.fst st.vertex_name_to_ind) = false := by
        simpa [stNames] using hs
      simp [stNames, addNew, hnd, hs']
    · simp [firstEps, hnd, hsf, addPropertiesList, hadd]
    · intro hlen
      simp [stNames] at hlen ⊢
      omega

lemma firstEps_append (l1 l2 : List Endpoint) : ∀ seen : List String,
    firstEps seen (l1 ++ l2) =
      firstEps seen l1 ++ firstEps ((l1.map epNameD).foldl addNew seen) l2 := by
  induction l1 with
  | nil => intro seen; simp [firstEps]
  | cons ep l1 ih =>
    intro seen
    by_cases h : nameMem (epNameD ep) seen
    · simp only [List.cons_append, firstEps, h, if_true, List.map_cons,
        List.foldl_cons, List.append_eq]
      rw [ih]
      have : addNew seen (epNameD ep) = seen := by simp [addNew, h]
      rw [this]
    · have hf : nameMem (epNameD ep) seen = false := by simpa using h
      simp only [List.cons_append, firstEps, hf, Bool.false_eq_true, if_false,
        List.map_cons, List.foldl_cons, List.append_eq]
      rw [ih]
      have : addNew seen (epNameD ep) = seen ++ [epNameD ep] := by
        simp [addNew, hf]
      rw [this]

lemma addPropertiesList_append (l1 l2 : List Endpoint) :
    ∀ vp : List (String × List String),
    addPropertiesList vp (l1 ++ l2) =
      match addPropertiesList vp l1 with
      | .error e => .error e
      | .ok vp2 => addPropertiesList vp2 l2 := by
  induction l1 with
  | nil => intro vp; rfl
  | cons ep l1 ih =>
    intro vp
    simp only [List.cons_append, addPropertiesList]
    rcases h : addProperties vp (dictSet ep.properties "type" [ep.type]) with e | vp2
    · rfl
    · exact ih vp2

lemma processConn_wf (st : GState) (c : Conn) (hc : connWF c = true) :
    ∃ st2, processConn st c = .ok (st2, mutateConn c) ∧
      stNames st2 = addNew (addNew (stNames st) (epNameD c.1)) (epNameD c.2) ∧
      (st.vertices_so_far = (stNames st).length →
        st2.vertices_so_far = (stNames st2).length) ∧
      st2.vertex_index_connections.length =
        st.vertex_index_connections.length + 1 ∧
      addPropertiesList st.vertex_properties (firstEps (stNames st) [c.1, c.2])
        = .ok st2.vertex_properties := by
  have hc' : epWF c.1 = true ∧ epWF c.2 = true := by
    simpa [connWF] using hc
  obtain ⟨st1, i1, he1, hn1, hcl1, hp1, hv1⟩ := processEndpoint_wf st c.1 hc'.1
  obtain ⟨stB, i2, he2, hn2, hcl2, hp2, hv2⟩ := processEndpoint_wf st1 c.2 hc'.2
  refine ⟨{ stB with vertex_index_connections :=
      stB.vertex_index_connections ++ [(i1, i2)] }, ?_, ?_, ?_, ?_, ?_⟩
  · simp only [processConn, he1, he2, mutateConn]
  · simp only [stNames] at hn1 hn2 ⊢
    rw [hn2, hn1]
  · intro hh
    exact hv2 (hv1 hh)
  · simp [hcl2, hcl1]
  · have hsplit : firstEps (stNames st) [c.1, c.2] =
        firstEps (stNames st) [c.1] ++ firstEps (stNames st1) [c.2] := by
      have h := firstEps_append [c.1] [c.2] (stNames st)
      simpa [← hn1] using h
    rw [hsplit, addPropertiesList_append, hp1]
    exact hp2

lemma processConn_seen (st : GState) (c : Conn) (hc : connNamed c = true)
    (hs1 : nameMem (epNameD c.1) (stNames st) = true)
    (hs2 : nameMem (epNameD c.2) (stNames st) = true) :
    ∃ p, processConn st c =
      .ok ({ st with vertex_index_connections :=
        st.vertex_index_connections ++ [p] }, mutateConn c) := by
  have hc' : (epName c.1).isSome = true ∧ (epName c.2).isSome = true := by
    simpa [connNamed] using hc
  obtain ⟨n1, hn1⟩ := Option.isSome_iff_exists.mp hc'.1
  obtain ⟨n2, hn2⟩ := Option.isSome_iff_exists.mp hc'.2
  obtain ⟨i1, hi1⟩ := processEndpoint_seen st c.1 n1 hn1
    (by simpa [epNameD, hn1] using hs1)
  obtain ⟨i2, hi2⟩ := processEndpoint_seen st c.2 n2 hn2
    (by simpa [epNameD, hn2] using hs2)
  exact ⟨(i1, i2), by simp only [processConn, hi1, hi2, mutateConn]⟩

lemma processConns_append (l1 l2 : List Conn) : ∀ (st : GState) (acc : List Conn),
    processConns st acc (l1 ++ l2) =
      match processConns st acc l1 with
      | .error e => .error e
      | .ok (st2, acc2) => processConns st2 acc2 l2 := by
  induction l1 with
  | nil => intro st acc; rfl
  | cons c l1 ih =>
    intro st acc
    simp only [List.cons_append, processConns]
    rcases hp : processConn st c with e | r
    · rfl
    · exact ih r.1 (acc ++ [r.2])

/-- A full pass over well-formed connections: it succeeds, the name table is
the fold of `addNew` over the endpoint names (dedup by name, first
occurrence order), the counter tracks the table, one index pair is recorded
per connection, and the mutated records accumulate in order. -/
lemma processConns_wf (conns : List Conn) : ∀ (st : GState) (acc : List Conn),
    conns.all connWF = true →
    ∃ st2 acc2, processConns st acc conns = .ok (st2, acc2) ∧
      stNames st2 = (allEndpointNames conns).foldl addNew (stNames st) ∧
      (st.vertices_so_far = (stNames st).length →
        st2.vertices_so_far = (stNames st2).length) ∧
      st2.vertex_index_connections.length =
        st.vertex_index_connections.length + conns.length ∧
      addPropertiesList st.vertex_properties
          (firstEps (stNames st) (endpointsOf conns)) = .ok st2.vertex_properties ∧
      acc2 = acc ++ conns.map mutateConn := by
  induction conns with
  | nil =>
    intro st acc h
    exact ⟨st, acc, rfl, rfl, fun x => x, by simp [processConns], rfl, by simp⟩
  | cons c rest ih =>
    intro st acc h
    simp only [List.all_cons, Bool.and_eq_true] at h
    obtain ⟨st1, hpc, hnm, hvs, hcl, hprops1⟩ := processConn_wf st c h.1
    obtain ⟨st2, acc2, hrest, hnm2, hvs2, hcl2, hprops2, hacc⟩ :=
      ih st1 (acc ++ [mutateConn c]) h.2
    refine ⟨st2, acc2, ?_, ?_, ?_, ?_, ?_, ?_⟩
    · simp only [processConns, hpc, hrest]
    · rw [hnm2, hnm]; rfl
    · exact fun hh => hvs2 (hvs hh)
    · rw [hcl2, hcl]
      simp only [List.length_cons]
      omega
    · have hsplit : firstEps (stNames st) (endpointsOf (c :: rest)) =
          firstEps (stNames st) [c.1, c.2]
            ++ firstEps (stNames st1) (endpointsOf rest) := by
        have h := firstEps_append [c.1, c.2] (endpointsOf rest) (stNames st)
        simpa [← hnm, endpointsOf] using h
      rw [hsplit, addPropertiesList_append, hprops1]
      exact hprops2
    · rw [hacc]; simp

lemma allEndpointNames_cons (c : Conn) (rest : List Conn) :
    allEndpointNames (c :: rest) =
      epNameD c.1 :: epNameD c.2 :: allEndpointNames rest := rfl

/-- A pass over connections all of whose endpoint names are already in the
table: it succeeds and changes nothing but the edge list (and the mutated
records): the vertex property table, the name table and the vertex counter
are exactly preserved. -/
lemma processConns_seen (extra : List Conn) : ∀ (st : GState) (acc : List Conn),
    extra.all connNamed = true →
    (allEndpointNames extra).all (fun n => nameMem n (stNames st)) = true →
    ∃ st2 acc2, processConns st acc extra = .ok (st2, acc2) ∧
      st2.vertex_properties = st.vertex_properties ∧
      st2.vertex_name_to_ind = st.vertex_name_to_ind ∧
      st2.vertices_so_far = st.vertices_so_far ∧
      st2.vertex_index_connections.length =
        st.vertex_index_connections.length + extra.length := by
  induction extra with
  | nil =>
    intro st acc h hm
    exact ⟨st, acc, rfl, rfl, rfl, rfl, by simp [processConns]⟩
  | cons c rest ih =>
    intro st acc h hm
    simp only [List.all_cons, Bool.and_eq_true] at h
    rw [allEndpointNames_cons] at hm
    simp only [List.all_cons, Bool.and_eq_true] at hm
    obtain ⟨p, hpc⟩ := processConn_seen st c h.1 hm.1 hm.2.1
    have hst' : stNames { st with vertex_index_connections :=
        st.vertex_index_connections ++ [p] } = stNames st := rfl
    obtain ⟨st2, acc2, hrest, hp2, hni2, hvs2, hcl2⟩ :=
      ih { st with vertex_index_connections := st.vertex_index_connections ++ [p] }
        (acc ++ [mutateConn c]) h.2 (by rw [hst']; exact hm.2.2)
    refine ⟨st2, acc2, ?_, hp2, hni2, hvs2, ?_⟩
    · simp only [processConns, hpc, hrest]
    · rw [hcl2]; simp; omega

lemma nameMem_cons (n a : String) (l : List String) :
    nameMem n (a :: l) = ((a == n) || nameMem n l) := by
  simp [nameMem, List.any_cons]

lemma nameMem_append (n : String) (l1 l2 : List String) :
    nameMem n (l1 ++ l2) = (nameMem n l1 || nameMem n l2) := by
  simp [nameMem, List.any_append]

lemma nameMem_foldl_addNew (l : List String) : ∀ (seen : List String) (n : String),
    nameMem n (l.foldl addNew seen) = (nameMem n seen || nameMem n l) := by
  induction l with
  | nil => intro seen n; simp [nameMem]
  | cons a l ih =>
    intro seen n
    simp only [List.foldl_cons]
    rw [ih]
    unfold addNew
    by_cases hmem : nameMem a seen
    · simp only [hmem, if_true]
      by_cases han : a = n
      · subst han
        simp [nameMem_cons, hmem]
      · have hf : (a == n) = false := by simp [han]
        simp [nameMem_cons, hf]
    · have hm' : nameMem a seen = false := by simpa using hmem
      simp only [hm', Bool.false_eq_true, if_false]
      rw [nameMem_append, nameMem_cons]
      simp [nameMem, Bool.or_assoc]

/-- Claim C2: building from any ordered connection list yields one vertex
per distinct endpoint name — the stored name table is exactly the first
occurrences of the endpoint names in input order (identity determined
solely by the name), the vertex counter equals its length — and one edge
per connection record. The stored property table is exactly the
property-copy fold over `firstEps` — the endpoint carrying the first
occurrence of each name — so later occurrences of a name, wherever they sit
in the list, never alter the stored properties and never add vertices; they
only contribute their connection's edge. In particular (last conjunct)
appending further connections over already-seen names leaves properties,
name table and vertex count unchanged and adds exactly one edge per new
record. -/
theorem build_dedup_first_wins (conns : List Conn)
    (h1 : conns.all connWF = true) :
    ∃ st muts, create_from_connections_undirected conns = .ok (st, muts) ∧
      stNames st = firstOccurs (allEndpointNames conns) ∧
      st.vertices_so_far = (firstOccurs (allEndpointNames conns)).length ∧
      st.vertex_index_connections.length = conns.length ∧
      addPropertiesList [] (firstEps [] (endpointsOf conns))
        = .ok st.vertex_properties ∧
      ∀ extra : List Conn, extra.all connNamed = true →
        (allEndpointNames extra).all
          (fun n => nameMem n (allEndpointNames conns)) = true →
        ∃ st2 muts2,
          create_from_connections_undirected (conns ++ extra) = .ok (st2, muts2) ∧
          st2.vertex_properties = st.vertex_properties ∧
          st2.vertex_name_to_ind = st.vertex_name_to_ind ∧
          st2.vertices_so_far = st.vertices_so_far ∧
          st2.vertex_index_connections.length = conns.length + extra.length := by
  obtain ⟨st, muts, hrun, hnm, hvs, hcl, hprops, hacc⟩ :=
    processConns_wf conns initState [] h1
  have hnm' : stNames st = firstOccurs (allEndpointNames conns) := by
    simpa [stNames, initState, firstOccurs] using hnm
  have hvs' : st.vertices_so_far = (firstOccurs (allEndpointNames conns)).length := by
    have := hvs (by simp [initState, stNames])
    rw [hnm'] at this
    exact this
  have hcl' : st.vertex_index_connections.length = conns.length := by
    simpa [initState] using hcl
  have hprops' : addPropertiesList [] (firstEps [] (endpointsOf conns))
      = .ok st.vertex_properties := by
    simpa [initState, stNames] using hprops
  refine ⟨st, muts, hrun, hnm', hvs', hcl', hprops', ?_⟩
  intro extra h2 h3
  have hcontains : (allEndpointNames extra).all
      (fun n => nameMem n (stNames st)) = true := by
    rw [List.all_eq_true] at h3 ⊢
    intro n hn
    have hx := h3 n hn
    rw [hnm']
    unfold firstOccurs
    rw [nameMem_foldl_addNew]
    simpa [nameMem] using hx
  obtain ⟨st2, acc2, hrun2, hp2, hni2, hvs2, hcl2⟩ :=
    processConns_seen extra st muts h2 hcontains
  refine ⟨st2, acc2, ?_, hp2, hni2, hvs2, ?_⟩
  · rw [create_from_connections_undirected, processConns_append, hrun]
    exact hrun2
  · rw [hcl2, hcl']

def epA : Endpoint := { properties := [("name", ["A"])], type := "X" }

def epB : Endpoint := { properties := [("name", ["B"])], type := "Y" }

def epD : Endpoint := { properties := [("name", ["D"])], type := "W" }

theorem build_dedup_first_wins_witness :
    ([((epA : Endpoint), (epB : Endpoint)), ((epA : Endpoint), (epD : Endpoint))].all
        connWF = true) ∧
    (∃ st muts,
      create_from_connections_undirected [(epA, epB), (epA, epD)] = .ok (st, muts) ∧
      stNames st = firstOccurs (allEndpointNames [(epA, epB), (epA, epD)]) ∧
      st.vertices_so_far =
        (firstOccurs (allEndpointNames [(epA, epB), (epA, epD)])).length ∧
      st.vertex_index_connections.length = [(epA, epB), (epA, epD)].length ∧
      addPropertiesList [] (firstEps [] (endpointsOf [(epA, epB), (epA, epD)]))
        = .ok st.vertex_properties) := by
  refine ⟨by decide, ?_⟩
  obtain ⟨st, muts, hrun, hnm, hvs, hcl, hprops, hext⟩ :=
    build_dedup_first_wins [(epA, epB), (epA, epD)] (by decide)
  exact ⟨st, muts, hrun, hnm, hvs, hcl, hprops⟩

/-! ### The in-place mutation of the caller's records (claim C10) -/

lemma processEndpoint_mutated (st : GState) (ep : Endpoint)
    (r : GState × Nat × Endpoint) (h : processEndpoint st ep = .ok r) :
    r.2.2 = injectType ep := by
  unfold processEndpoint at h
  split at h
  · cases h
  · cases h
  · split at h
    · cases h; rfl
    · split at h
      · cases h
      · cases h; rfl

lemma processConn_mutated (st : GState) (c : Conn) (st2 : GState) (mc : Conn)
    (h : processConn st c = .ok (st2, mc)) : mc = mutateConn c := by
  unfold processConn at h
  split at h
  · cases h
  · rename_i st1 i1 m1 heq1
    split at h
    · cases h
    · rename_i stB i2 m2 heq2
      cases h
      have hm1 : m1 = injectType c.1 :=
        processEndpoint_mutated st c.1 (st1, i1, m1) heq1
      have hm2 : m2 = injectType c.2 :=
        processEndpoint_mutated st1 c.2 (stB, i2, m2) heq2
      simp [mutateConn, hm1, hm2]

lemma processConns_muts (conns : List Conn) : ∀ (st : GState) (acc : List Conn)
    (st2 : GState) (acc2 : List Conn),
    processConns st acc conns = .ok (st2, acc2) →
    acc2 = acc ++ conns.map mutateConn := by
  induction conns with
  | nil =>
    intro st acc st2 acc2 h
    cases h
    simp
  | cons c rest ih =>
    intro st acc st2 acc2 h
    unfold processConns at h
    rcases hp : processConn st c with e | r
    · rw [hp] at h; cases h
    · rw [hp] at h
      obtain ⟨stA, mc⟩ := r
      have hmc : mc = mutateConn c := processConn_mutated st c stA mc hp
      have := ih stA (acc ++ [mc]) st2 acc2 h
      rw [this, hmc]
      simp

/-- Claim C10: a successful `build` leaves the caller's input records
mutated: each endpoint's `properties` mapping has a `type` key set to the
one-element list holding the record's type label, overwriting any
pre-existing `type` entry (line 70 of `local_graph.py` assigns into the
caller's dict in place; the embedding threads the post-call records through
and returns them). -/
theorem build_mutates_input (conns : List Conn) (st : GState) (muts : List Conn)
    (h : create_from_connections_undirected conns = .ok (st, muts)) :
    muts = conns.map mutateConn ∧
    ∀ c ∈ conns,
      dictGet (mutateConn c).1.properties "type" = some [c.1.type] ∧
      dictGet (mutateConn c).2.properties "type" = some [c.2.type] := by
  constructor
  · simpa using processConns_muts conns initState [] st muts h
  · intro c hc
    exact ⟨dictGet_dictSet_same _ _ _, dictGet_dictSet_same _ _ _⟩

def epC : Endpoint :=
  { properties := [("name", ["C"]), ("type", ["old"])], type := "Znew" }

def stC : GState :=
  { vertex_properties := [("name", ["C", "A"]), ("type", ["Znew", "X"])],
    vertex_name_to_ind := [("C", 0), ("A", 1)],
    vertex_index_connections := [(0, 1)],
    vertices_so_far := 2 }

def mutsC : List Conn :=
  [({ properties := [("name", ["C"]), ("type", ["Znew"])], type := "Znew" },
    { properties := [("name", ["A"]), ("type", ["X"])], type := "X" })]

theorem build_mutates_input_witness :
    mutsC = [((epC : Endpoint), (epA : Endpoint))].map mutateConn ∧
    mutsC ≠ [(epC, epA)] :=
  ⟨(build_mutates_input [(epC, epA)] stC mutsC (by rfl)).1, by decide⟩

end HiraxLayout
